import Mathlib

/-!
Verification of the CLI-backed task orchestrator of the
`rust-desktop-app-template` repository.

The development shallowly embeds the text-processing and decision logic of

* `src-tauri/src/services/ai.rs` — backend selection, executable
  resolution, argument-vector construction, the trailer parser
  `parse_codeagent_stdout`, the diagnostic helper `tail_snippet`, and the
  post-exit orchestration of `run_codeagent_wrapper`;
* `src-tauri/src/tauri/commands.rs` — the chunking loop of
  `send_chat_message_streaming`.

Rust strings are modelled as `List Char` (one element per Unicode scalar
value).  The Rust code slices strings only at byte indices returned by
substring search (always character boundaries), so character-level indexing
is an exact model; where the Rust code measures **bytes** (the streaming
flush threshold, `tail_snippet`) the model uses `Char.utf8Size` explicitly.
-/

set_option autoImplicit false

namespace Orchestrator

/-! ### Character-level string primitives -/

/-- Unicode code points with the `White_Space` property: the exact set
accepted by `char::is_whitespace` in Rust, which `str::trim` uses. -/
def isRustWhitespace (c : Char) : Bool :=
  let n := c.toNat
  (0x09 ≤ n && n ≤ 0x0D) || n == 0x20 || n == 0x85 || n == 0xA0 ||
    n == 0x1680 || (0x2000 ≤ n && n ≤ 0x200A) || n == 0x2028 ||
    n == 0x2029 || n == 0x202F || n == 0x205F || n == 0x3000

/-- Model of `str::trim_start`. -/
def trimStart (cs : List Char) : List Char :=
  cs.dropWhile isRustWhitespace

/-- Model of `str::trim_end`. -/
def trimEnd (cs : List Char) : List Char :=
  (cs.reverse.dropWhile isRustWhitespace).reverse

/-- Model of `str::trim`. -/
def trim (cs : List Char) : List Char :=
  trimEnd (trimStart cs)

/-- Model of `s.replace("\r\n", "\n")`: a single left-to-right pass over
non-overlapping occurrences, exactly as `str::replace` performs it. -/
def normalizeNewlines : List Char → List Char
  | [] => []
  | [c] => [c]
  | c :: d :: rest =>
    if c = '\r' ∧ d = '\n' then '\n' :: normalizeNewlines rest
    else c :: normalizeNewlines (d :: rest)

/-- Decides whether `needle` is a leading segment of `hay` (the test behind
`str::starts_with`, used here to define substring occurrence). -/
def headMatch : List Char → List Char → Bool
  | [], _ => true
  | _ :: _, [] => false
  | a :: as, b :: bs => if a = b then headMatch as bs else false

/-- Scan positions `i, i-1, …, 0` of `hay` for the needle; returns the
largest position `≤ i` where the needle occurs. -/
def rfindFrom (needle hay : List Char) : Nat → Option Nat
  | 0 => if headMatch needle hay then some 0 else none
  | i + 1 =>
    if headMatch needle (hay.drop (i + 1)) then some (i + 1)
    else rfindFrom needle hay i

/-- Model of `str::rfind(&str)`: the index (in scalar values) of the last
occurrence of `needle` in `hay`, if any. -/
def rfindIdx (needle hay : List Char) : Option Nat :=
  rfindFrom needle hay hay.length

/-- Substring occurrence test, via the last-occurrence search. -/
def occursB (needle hay : List Char) : Bool :=
  (rfindIdx needle hay).isSome

/-- UTF-8 byte length of a string, as `String::len` measures it in Rust. -/
def utf8Len (cs : List Char) : Nat :=
  (cs.map Char.utf8Size).sum

/-- Model of `str::trim_end_matches('-')`: strip every trailing dash. -/
def dropTrailingDashes (cs : List Char) : List Char :=
  (cs.reverse.dropWhile (fun c => c = '-')).reverse

/-- Model of `str::trim_start_matches(':')`: strip every leading colon. -/
def dropLeadingColons (cs : List Char) : List Char :=
  cs.dropWhile (fun c => c = ':')

/-- Strip one trailing carriage return (the `\r` of a `\r\n` terminator),
as the `lines` iterator does for a newline-terminated line. -/
def stripTrailCR (cs : List Char) : List Char :=
  if cs.getLast? = some '\r' then cs.dropLast else cs

/-- Model of `s.lines().next()`: `none` for the empty string, otherwise the
text up to the first newline — with a terminating `\r\n`/`\n` stripped; a
final line that is not newline-terminated keeps a lone trailing `\r`. -/
def firstLineRust (cs : List Char) : Option (List Char) :=
  if cs.isEmpty then none
  else if (cs.takeWhile (fun c => c ≠ '\n')).length < cs.length then
    some (stripTrailCR (cs.takeWhile (fun c => c ≠ '\n')))
  else some (cs.takeWhile (fun c => c ≠ '\n'))

/-! ### Trailer parser (`parse_codeagent_stdout`, services/ai.rs) -/

/-- The key token `SESSION_ID:` as a character list. -/
def keyTok : List Char := ['S', 'E', 'S', 'S', 'I', 'O', 'N', '_', 'I', 'D', ':']

/-- The preferred exact marker `"\n---\nSESSION_ID:"`. -/
def marker1 : List Char := '\n' :: '-' :: '-' :: '-' :: '\n' :: keyTok

/-- The fallback marker `"---\nSESSION_ID:"` (missing leading newline). -/
def marker2 : List Char := '-' :: '-' :: '-' :: '\n' :: keyTok

/-- Identifier extraction used after `marker1`/`marker2`: first line of the
tail, trimmed, leading colons stripped, trimmed again, `none` if empty. -/
def sessionIdAfterMarker (tail : List Char) : Option (List Char) :=
  (firstLineRust tail).bind (fun line =>
    if (trim (dropLeadingColons (trim line))).isEmpty then none
    else some (trim (dropLeadingColons (trim line))))

/-- Identifier extraction used after a bare `SESSION_ID:`: first line of the
tail, trimmed, `none` if empty. -/
def sessionIdBare (tail : List Char) : Option (List Char) :=
  (firstLineRust tail).bind (fun line =>
    if (trim line).isEmpty then none else some (trim line))

/-- The scanning phase of `parse_codeagent_stdout` over the already
normalized text: try `marker1`, then `marker2`, then the bare key token, in
this priority order, taking the last occurrence of the form that matches;
with no match at all the whole trimmed text is the message. -/
def parseNormalized (normalized : List Char) : List Char × Option (List Char) :=
  (rfindIdx marker1 normalized).elim
    ((rfindIdx marker2 normalized).elim
      ((rfindIdx keyTok normalized).elim
        (trim normalized, none)
        (fun idx =>
          (trim (dropTrailingDashes (normalized.take idx)),
           sessionIdBare (normalized.drop (idx + keyTok.length)))))
      (fun idx =>
        (trim (normalized.take idx),
         sessionIdAfterMarker (normalized.drop (idx + marker2.length)))))
    (fun idx =>
      (trim (normalized.take idx),
       sessionIdAfterMarker (normalized.drop (idx + marker1.length))))

/-- Model of `parse_codeagent_stdout` (services/ai.rs, lines 559–613):
normalize line endings, then scan for the trailer markers. -/
def parse_codeagent_stdout (stdout : List Char) : List Char × Option (List Char) :=
  parseNormalized (normalizeNewlines stdout)

/-! ### Diagnostic tails (`tail_snippet`, services/ai.rs) -/

/-- The byte positions of `cs` that are character boundaries (including `0`
and the total byte length). -/
def byteBoundaries : List Char → List Nat
  | [] => [0]
  | c :: rest => 0 :: (byteBoundaries rest).map (· + c.utf8Size)

/-- Model of `str::is_char_boundary` for an in-range byte index. -/
def isCharBoundary (cs : List Char) (n : Nat) : Bool :=
  (byteBoundaries cs).contains n

/-- The characters of `cs` whose bytes lie below byte index `n`; meaningful
when `n` is a character boundary. -/
def byteTake : List Char → Nat → List Char
  | _, 0 => []
  | [], _ => []
  | c :: rest, n => if c.utf8Size ≤ n then c :: byteTake rest (n - c.utf8Size) else []

/-- Model of `String::truncate(n)`: no-op when `n` exceeds the byte length,
keeps the first `n` bytes when `n` is a character boundary, and **panics**
(modelled as `none`) otherwise. -/
def truncateBytes (cs : List Char) (n : Nat) : Option (List Char) :=
  if utf8Len cs < n then some cs
  else if isCharBoundary cs n then some (byteTake cs n) else none

/-- The last `k` characters of `cs` (the slice `&s[start..]` taken from the
byte index of the `k`-th character from the end). -/
def lastChars (cs : List Char) (k : Nat) : List Char :=
  cs.drop (cs.length - k)

/-- Model of `tail_snippet` (services/ai.rs, lines 615–636).  `none` models
a panic of the final `String::truncate` call.  When the text has more than
`max_chars` characters the kept slice starts at the character index
returned by `char_indices().rev().nth(max_chars)`, i.e. it holds the last
`max_chars + 1` characters, preceded by a `…` mark. -/
def tail_snippet (s : List Char) (max_chars : Nat) : Option (List Char) :=
  if max_chars = 0 then some []
  else
    let normalized := normalizeNewlines s
    let out :=
      if normalized.length ≤ max_chars then normalized
      else '…' :: lastChars normalized (max_chars + 1)
    if max_chars + 2 < utf8Len out then truncateBytes out (max_chars + 2)
    else some out

/-! ### Streaming chunk loop (`send_chat_message_streaming`, tauri/commands.rs) -/

/-- The flush threshold of the streaming loop (`buffer.len() >= 32`). -/
def flushThreshold : Nat := 32

/-- One step of the chunking loop of `send_chat_message_streaming`
(tauri/commands.rs, lines 289–315): push the next character into the
buffer, and flush the buffer as one event `(delta, is_last)` once its
UTF-8 **byte** length reaches the threshold or the last character has been
consumed.  The event sink is modelled as a pure collector (the Rust loop
would stop early only if event emission itself failed). -/
def streamChunks (buffer : List Char) : List Char → List (List Char × Bool)
  | [] => []
  | c :: rest =>
    if flushThreshold ≤ utf8Len (buffer ++ [c]) ∨ rest = [] then
      (buffer ++ [c], rest.isEmpty) :: streamChunks [] rest
    else
      streamChunks (buffer ++ [c]) rest

/-- The full sequence of events emitted for one response text. -/
def send_chat_message_streaming_events (full_response : List Char) :
    List (List Char × Bool) :=
  streamChunks [] full_response

/-- Concatenation of the deltas of an event sequence, in emission order. -/
def concatDeltas (es : List (List Char × Bool)) : List Char :=
  es.foldr (fun e acc => e.1 ++ acc) []

/-! ### Backend selection (services/ai.rs) -/

/-- ASCII lowercasing, modelling `str::to_lowercase` on the ASCII alphabet
(the only characters the three backend names contain). -/
def toLowerList (cs : List Char) : List Char :=
  cs.map Char.toLower

/-- Model of `AiService::derive_backend_from_current_model` (services/ai.rs,
lines 252–263): substring match on the lowercased current model name,
defaulting to `codex`. -/
def derive_backend_from_current_model (current_model : Option (List Char)) :
    List Char :=
  let m := toLowerList (current_model.getD [])
  if occursB ("claude").data m then ("claude").data
  else if occursB ("gemini").data m then ("gemini").data
  else ("codex").data

/-- Model of `AiService::derive_backend_from_code_cli` (services/ai.rs,
lines 265–279): substring match on the trimmed, lowercased caller hint;
`none` when the hint is empty or unrecognized. -/
def derive_backend_from_code_cli (code_cli : List Char) : Option (List Char) :=
  let v := toLowerList (trim code_cli)
  if v.isEmpty then none
  else if occursB ("claude").data v then some (("claude").data)
  else if occursB ("gemini").data v then some (("gemini").data)
  else if occursB ("codex").data v then some (("codex").data)
  else none

/-- Backend resolution of `send_message_with_options` (services/ai.rs,
lines 187–192): the explicitly configured backend, else the backend derived
from the caller hint, else the backend derived from the current model. -/
def select_backend (configured : Option (List Char)) (code_cli : Option (List Char))
    (current_model : Option (List Char)) : List Char :=
  ((configured).orElse
      (fun _ => code_cli.bind derive_backend_from_code_cli)).getD
    (derive_backend_from_current_model current_model)

/-! ### Executable resolution (`find_codeagent_wrapper`, services/ai.rs) -/

/-- The filesystem and process environment the resolver consults.  Each
field abstracts one observation the Rust code makes: `Path::exists`,
`Path::is_file`, the `PATH` entries, and `dirs::home_dir()`. -/
structure ResolveFs where
  pathExists : String → Bool
  isFile : String → Bool
  pathDirs : List String
  homeDir : Option String

/-- POSIX path join, as `PathBuf::join` produces it on the non-Windows
build that this model follows. -/
def joinPath (d f : String) : String := d ++ "/" ++ f

/-- The platform binary name on the non-Windows build. -/
def programName : String := "codeagent-wrapper"

/-- The compile-time `CARGO_MANIFEST_DIR` constant of the build. -/
def cargoManifestDir : String := "src-tauri"

/-- Model of `AiService::which_in_path` (services/ai.rs, lines 305–314):
first `PATH` entry whose joined candidate is a file. -/
def which_in_path (fs : ResolveFs) (program : String) : Option String :=
  (fs.pathDirs.find? (fun d => fs.isFile (joinPath d program))).map
    (fun d => joinPath d program)

/-- The development-mode fallback `CARGO_MANIFEST_DIR/bin/<program>`. -/
def devCandidate : String := joinPath (joinPath cargoManifestDir "bin") programName

/-- Model of `AiService::find_codeagent_wrapper` (services/ai.rs, lines
316–360).  An explicit path succeeds exactly when it exists and otherwise
fails outright; with no explicit path the search order is `PATH`, then
`$HOME/bin` and `$HOME/.claude/bin`, then the development fallback. -/
def find_codeagent_wrapper (fs : ResolveFs) (explicit_path : Option String) :
    Except String String :=
  match explicit_path with
  | some p =>
    if fs.pathExists p then .ok p
    else .error "指定的 codeagent-wrapper 路径不存在"
  | none =>
    match which_in_path fs programName with
    | some p => .ok p
    | none =>
      let afterHome :=
        if fs.pathExists devCandidate then .ok devCandidate
        else .error "未找到 codeagent-wrapper"
      match fs.homeDir with
      | some home =>
        let c1 := joinPath (joinPath home "bin") programName
        let c2 := joinPath (joinPath (joinPath home ".claude") "bin") programName
        if fs.pathExists c1 then .ok c1
        else if fs.pathExists c2 then .ok c2
        else afterHome
      | none => afterHome

/-! ### Argument vector (`run_codeagent_wrapper`, services/ai.rs) -/

/-- The fields of `CodeagentRunSpec` (services/ai.rs, lines 531–544) that
the argument construction reads. -/
structure CodeagentRunSpec where
  task : List Char
  backend : List Char
  workdir : List Char
  skip_permissions : Bool
  timeout_ms : Option Nat
  max_parallel_workers : Option Nat
  binary_path : Option String
  resume_session_id : Option (List Char)
  parallel : Bool
  codex_model : Option (List Char)

/-- The argument vector built by `run_codeagent_wrapper` (services/ai.rs,
lines 371–400), translating the sequence of `args.push` calls. -/
def run_codeagent_wrapper_args (spec : CodeagentRunSpec) : List (List Char) :=
  let args : List (List Char) := []
  let args :=
    if (trim spec.backend).isEmpty then args
    else args ++ [("--backend").data, trim spec.backend]
  let args := if spec.parallel then args ++ [("--parallel").data] else args
  let args :=
    if spec.skip_permissions then args ++ [("--dangerously-skip-permissions").data]
    else args
  if spec.parallel then args
  else
    let args :=
      match spec.resume_session_id with
      | some r => if (trim r).isEmpty then args else args ++ [("resume").data, trim r]
      | none => args
    args ++ [("-").data, spec.workdir]

/-- Modelled from the spec (§4.3 of the design document and claim C8): the
argument vector in the stated order — backend flag if the trimmed backend
name is non-empty, parallel flag if requested, permission-skip flag if
requested, then only in non-parallel mode an optional `resume <id>` pair
for a non-empty trimmed continuation id followed by the stdin sentinel and
the working directory; in parallel mode nothing further. -/
def run_codeagent_wrapper_args_spec (spec : CodeagentRunSpec) : List (List Char) :=
  (if (trim spec.backend).isEmpty then [] else [("--backend").data, trim spec.backend])
    ++ (if spec.parallel then [("--parallel").data] else [])
    ++ (if spec.skip_permissions then [("--dangerously-skip-permissions").data] else [])
    ++ (if spec.parallel then []
        else
          (match spec.resume_session_id with
           | some r => if (trim r).isEmpty then [] else [("resume").data, trim r]
           | none => []) ++ [("-").data, spec.workdir])

/-! ### Post-exit orchestration (`run_codeagent_wrapper`, services/ai.rs) -/

/-- The decoded output of one finished child process. -/
structure RunOutput where
  stdout : List Char
  stderr : List Char
  exit_code : Int
  deriving DecidableEq

/-- The successful result record (`CodeagentRunResult`). -/
structure CodeagentRunResult where
  message : List Char
  session_id : Option (List Char)
  raw_stdout : List Char
  raw_stderr : List Char
  exit_code : Int
  deriving DecidableEq

/-- The part of the nonzero-exit error text before the stderr: the
`format!` literal up to and including `"stderr: "`, with the exit code
interpolated. -/
def nonzeroExitHeader (exit_code : Int) : List Char :=
  ("codeagent-wrapper 退出码 ").data ++ (toString exit_code).data
    ++ ("。stderr: ").data

/-- The error text built for a nonzero exit code (services/ai.rs, lines
500–504): the literal exit code and the **full** trimmed stderr. -/
def nonzeroExitErrorMsg (exit_code : Int) (stderr : List Char) : List Char :=
  nonzeroExitHeader exit_code ++ trim stderr

/-- The error text built when the child succeeded but the parsed message is
empty (services/ai.rs, lines 515–518). -/
def emptyResultErrorMsg (stderr : List Char) : List Char :=
  ("codeagent-wrapper 未返回有效消息。stderr: ").data ++ trim stderr

/-- Model of the tail of `run_codeagent_wrapper` (services/ai.rs, lines
491–528): after the child has exited and its streams were decoded, a
nonzero exit code is an error carrying the exit code and full trimmed
stderr; otherwise the stdout is parsed, and an empty or whitespace-only
message is the `EmptyResult` error; otherwise the parsed result is
returned. -/
def run_codeagent_outcome (out : RunOutput) :
    Except (List Char) CodeagentRunResult :=
  if out.exit_code ≠ 0 then .error (nonzeroExitErrorMsg out.exit_code out.stderr)
  else
    let parsed := parse_codeagent_stdout out.stdout
    if (trim parsed.1).isEmpty then .error (emptyResultErrorMsg out.stderr)
    else .ok ⟨parsed.1, parsed.2, out.stdout, out.stderr, out.exit_code⟩

/-! ### Lemmas about `headMatch` and the last-occurrence search -/

theorem headMatch_iff {l t : List Char} : headMatch l t = true ↔ ∃ r, t = l ++ r := by
  induction l generalizing t with
  | nil => simp [headMatch]
  | cons a as ih =>
    cases t with
    | nil => simp [headMatch]
    | cons b bs =>
      by_cases hab : a = b
      · subst hab
        simp [headMatch, ih]
      · simp only [headMatch, if_neg hab]
        constructor
        · intro h; exact absurd h (by simp)
        · rintro ⟨r, hr⟩
          injection hr with h1 h2
          exact absurd h1.symm hab

theorem headMatch_self (l r : List Char) : headMatch l (l ++ r) = true :=
  headMatch_iff.mpr ⟨r, rfl⟩

theorem headMatch_nil {a : Char} {as : List Char} : headMatch (a :: as) [] = false :=
  rfl

/-- A nonempty needle cannot occur at a position past the end of the text. -/
theorem headMatch_drop_of_length_lt {n h : List Char} {j : Nat} (hn : n ≠ [])
    (hj : h.length < j) : headMatch n (h.drop j) = false := by
  have hdrop : h.drop j = [] := List.drop_eq_nil_of_le (Nat.le_of_lt hj)
  rw [hdrop]
  cases n with
  | nil => exact absurd rfl hn
  | cons a as => exact headMatch_nil

theorem rfindFrom_eq_some {n h : List Char} {i k : Nat}
    (hk : rfindFrom n h i = some k) :
    headMatch n (h.drop k) = true ∧ k ≤ i := by
  induction i with
  | zero =>
    by_cases hm : headMatch n h = true
    · simp only [rfindFrom, List.drop_zero, if_pos hm, Option.some.injEq] at hk
      subst hk
      simpa using hm
    · simp only [rfindFrom, List.drop_zero] at hk
      rw [if_neg hm] at hk
      exact absurd hk (by simp)
  | succ j ih =>
    by_cases hm : headMatch n (h.drop (j + 1)) = true
    · simp only [rfindFrom, if_pos hm, Option.some.injEq] at hk
      subst hk
      exact ⟨hm, Nat.le_refl _⟩
    · simp only [rfindFrom] at hk
      rw [if_neg hm] at hk
      rcases ih hk with ⟨h1, h2⟩
      exact ⟨h1, Nat.le_succ_of_le h2⟩

theorem rfindFrom_max {n h : List Char} {i k : Nat}
    (hk : rfindFrom n h i = some k) :
    ∀ j, k < j → j ≤ i → headMatch n (h.drop j) = false := by
  induction i with
  | zero =>
    intro j hkj hji
    rcases rfindFrom_eq_some hk with ⟨-, hk0⟩
    omega
  | succ m ih =>
    intro j hkj hji
    by_cases hm : headMatch n (h.drop (m + 1)) = true
    · simp only [rfindFrom, if_pos hm, Option.some.injEq] at hk
      omega
    · simp only [rfindFrom] at hk
      rw [if_neg hm] at hk
      rcases Nat.lt_or_ge j (m + 1) with hlt | hge
      · exact ih hk j hkj (Nat.lt_succ_iff.mp hlt)
      · have : j = m + 1 := Nat.le_antisymm hji hge
        subst this
        exact Bool.eq_false_iff.mpr hm

theorem rfindFrom_none {n h : List Char} {i : Nat}
    (hk : rfindFrom n h i = none) :
    ∀ j, j ≤ i → headMatch n (h.drop j) = false := by
  induction i with
  | zero =>
    intro j hj
    have hj0 : j = 0 := Nat.le_zero.mp hj
    subst hj0
    simp only [rfindFrom, List.drop_zero] at hk ⊢
    by_cases hm : headMatch n h = true
    · rw [if_pos hm] at hk; exact absurd hk (by simp)
    · exact Bool.eq_false_iff.mpr hm
  | succ m ih =>
    intro j hj
    by_cases hm : headMatch n (h.drop (m + 1)) = true
    · simp only [rfindFrom, if_pos hm] at hk
      exact absurd hk (by simp)
    · simp only [rfindFrom] at hk
      rw [if_neg hm] at hk
      rcases Nat.lt_or_ge j (m + 1) with hlt | hge
      · exact ih hk j (Nat.lt_succ_iff.mp hlt)
      · have : j = m + 1 := Nat.le_antisymm hj hge
        subst this
        exact Bool.eq_false_iff.mpr hm

theorem rfindFrom_exists {n h : List Char} {i j : Nat} (hji : j ≤ i)
    (hm : headMatch n (h.drop j) = true) :
    ∃ k, rfindFrom n h i = some k ∧ j ≤ k := by
  cases hk : rfindFrom n h i with
  | none => exact absurd hm (by simp [rfindFrom_none hk j hji])
  | some k =>
    refine ⟨k, rfl, ?_⟩
    by_contra hlt
    have hkj : k < j := Nat.lt_of_not_le hlt
    exact absurd hm (by simp [rfindFrom_max hk j hkj hji])

/-- Characterization used everywhere: the search returns `some k` when `k`
is an occurrence and nothing above `k` is. -/
theorem rfindIdx_eq_some {n h : List Char} {k : Nat}
    (hocc : headMatch n (h.drop k) = true)
    (habove : ∀ j, k < j → headMatch n (h.drop j) = false) :
    rfindIdx n h = some k := by
  have hn : n ≠ [] := by
    intro hnil
    subst hnil
    exact absurd (habove (k + 1) (Nat.lt_succ_self k)) (by simp [headMatch])
  have hkle : k ≤ h.length := by
    by_contra hgt
    exact absurd hocc
      (by simp [headMatch_drop_of_length_lt hn (Nat.lt_of_not_le hgt)])
  rcases rfindFrom_exists hkle hocc with ⟨m, hm, hkm⟩
  rcases Nat.eq_or_lt_of_le hkm with heq | hlt
  · rw [rfindIdx, hm, heq]
  · rcases rfindFrom_eq_some hm with ⟨hoccm, -⟩
    exact absurd hoccm (by simp [habove m hlt])

theorem rfindIdx_eq_none {n h : List Char}
    (hno : ∀ j, headMatch n (h.drop j) = false) : rfindIdx n h = none := by
  cases hk : rfindIdx n h with
  | none => rfl
  | some k =>
    rcases rfindFrom_eq_some hk with ⟨hocc, -⟩
    exact absurd hocc (by simp [hno k])

theorem headMatch_false_of_occursB_eq_false {n h : List Char}
    (hb : occursB n h = false) : ∀ j, headMatch n (h.drop j) = false := by
  intro j
  have hnone : rfindIdx n h = none := by
    cases hk : rfindIdx n h with
    | none => rfl
    | some k => rw [occursB, hk] at hb; exact absurd hb (by simp)
  have hn : n ≠ [] := by
    intro hnil
    subst hnil
    have h0 := rfindFrom_none hnone 0 (Nat.zero_le _)
    simp [headMatch] at h0
  rcases Nat.lt_or_ge h.length j with hgt | hle
  · exact headMatch_drop_of_length_lt hn hgt
  · exact rfindFrom_none hnone j hle

/-! ### No-occurrence lemmas for concrete markers -/

theorem drop_append_left {x y : List Char} {k : Nat} (hk : k ≤ x.length) :
    (x ++ y).drop k = x.drop k ++ y := by
  rw [List.drop_append_eq_append_drop, Nat.sub_eq_zero_of_le hk, List.drop_zero]

theorem drop_append_beyond {x y : List Char} {k : Nat} (hk : x.length ≤ k) :
    (x ++ y).drop k = y.drop (k - x.length) := by
  conv_lhs => rw [show k = x.length + (k - x.length) by omega]
  exact List.drop_append _

/-- Bounded mismatch certificate: for every shift `k0 ≤ k < a.length`, some
position inside `a` itself already refutes a match of `l` starting at `k`,
whatever text follows `a`. -/
def shiftFreeFrom (l a : List Char) (k0 : Nat) : Bool :=
  decide (∀ k ∈ List.range a.length, k0 ≤ k →
    ∃ p ∈ List.range l.length, p < a.length - k ∧ a[k + p]? ≠ l[p]?)

theorem headMatch_false_of_shiftFree {l a : List Char} {k0 : Nat}
    (hsf : shiftFreeFrom l a k0 = true) {k : Nat} (hk0 : k0 ≤ k)
    (hk : k < a.length) (rest : List Char) :
    headMatch l (a.drop k ++ rest) = false := by
  by_contra hmatch
  have hmatch' : headMatch l (a.drop k ++ rest) = true := by
    cases hb : headMatch l (a.drop k ++ rest) with
    | false => exact absurd hb hmatch
    | true => rfl
  obtain ⟨r, hr⟩ := headMatch_iff.mp hmatch'
  have hsf' := of_decide_eq_true hsf
  obtain ⟨p, hpl, hpa, hne⟩ := hsf' k (List.mem_range.mpr hk) hk0
  have hpl' : p < l.length := List.mem_range.mp hpl
  have heq : (a.drop k ++ rest)[p]? = (l ++ r)[p]? := by rw [hr]
  have hl : (a.drop k ++ rest)[p]? = a[k + p]? := by
    rw [List.getElem?_append, if_pos (by simpa using hpa), List.getElem?_drop]
  have hrr : (l ++ r)[p]? = l[p]? := by
    rw [List.getElem?_append, if_pos hpl']
  rw [hl, hrr] at heq
  exact hne heq

/-- A needle with an interior newline cannot occur anywhere in `a ++ "\n"`
when `a` itself is newline-free: the needle has text after its newline, but
the only newline of the haystack is its final character. -/
theorem headMatch_false_interior_nl {l a : List Char} {q : Nat}
    (hq : l[q]? = some '\n') (hql : q + 1 < l.length)
    (ha : ∀ c ∈ a, c ≠ '\n') (m : Nat) :
    headMatch l ((a ++ ['\n']).drop m) = false := by
  by_contra hmatch
  have hmatch' : headMatch l ((a ++ ['\n']).drop m) = true := by
    cases hb : headMatch l ((a ++ ['\n']).drop m) with
    | false => exact absurd hb hmatch
    | true => rfl
  obtain ⟨r, hr⟩ := headMatch_iff.mp hmatch'
  have heq : ((a ++ ['\n']).drop m)[q]? = (l ++ r)[q]? := by rw [hr]
  have hrr : (l ++ r)[q]? = some '\n' := by
    rw [List.getElem?_append, if_pos (by omega)]; exact hq
  rw [List.getElem?_drop, hrr] at heq
  have hma : m + q = a.length := by
    rcases Nat.lt_or_ge (m + q) a.length with hlt | hge
    · rw [List.getElem?_append, if_pos hlt] at heq
      exact absurd rfl (ha _ (List.getElem?_mem heq))
    · rcases Nat.eq_or_lt_of_le hge with hgeq | hgt
      · omega
      · rw [List.getElem?_append, if_neg (by omega)] at heq
        have : m + q - a.length ≥ 1 := by omega
        rw [List.getElem?_eq_none (by simpa using this)] at heq
        exact absurd heq (by simp)
  have hlen : ((a ++ ['\n']).drop m).length = (l ++ r).length := by rw [hr]
  rw [List.length_drop, List.length_append, List.length_append] at hlen
  simp only [List.length_singleton] at hlen
  omega

/-- A newline-free needle that occurs in `a ++ "\n"` already occurs in `a`
at the same position. -/
theorem headMatch_nlfree_strip {l a : List Char} (hl : ∀ c ∈ l, c ≠ '\n')
    {m : Nat} (h : headMatch l ((a ++ ['\n']).drop m) = true) :
    headMatch l (a.drop m) = true := by
  obtain ⟨r, hr⟩ := headMatch_iff.mp h
  rcases Nat.lt_or_ge a.length m with hgt | hle
  · -- the haystack tail is at most `["\n"]`; `l` must be empty or end in `\n`
    have hdrop : (a ++ ['\n']).drop m = ['\n'].drop (m - a.length) :=
      drop_append_beyond (Nat.le_of_lt hgt)
    rw [hdrop] at hr
    cases l with
    | nil => rfl
    | cons c cs =>
      have hlen : (['\n'].drop (m - a.length)).length = (c :: cs ++ r).length := by
        rw [hr]
      simp only [List.length_drop, List.length_singleton, List.length_append,
        List.length_cons, List.length_nil] at hlen
      have hm1 : m - a.length = 0 := by omega
      rw [hm1, List.drop_zero] at hr
      injection hr with h1 h2
      exact absurd h1.symm (hl c (by simp))
  · rw [drop_append_left hle] at hr
    rcases Nat.lt_or_ge (a.drop m).length l.length with hlt | hge
    · -- the match would have to read the final newline into `l`
      have heq : (a.drop m ++ ['\n'])[(a.drop m).length]? =
          (l ++ r)[(a.drop m).length]? := by rw [hr]
      have h1 : (a.drop m ++ ['\n'])[(a.drop m).length]? = some '\n' := by
        rw [List.getElem?_append, if_neg (by omega), Nat.sub_self]
        rfl
      have h2 : (l ++ r)[(a.drop m).length]? = l[(a.drop m).length]? := by
        rw [List.getElem?_append, if_pos hlt]
      rw [h1, h2] at heq
      exact absurd rfl (hl '\n' (List.getElem?_mem heq.symm))
    · -- `l` fits inside `a.drop m`
      have htake : (a.drop m ++ ['\n']).take l.length = (l ++ r).take l.length := by
        rw [hr]
      rw [List.take_append_eq_append_take, Nat.sub_eq_zero_of_le hge,
        List.take_zero, List.append_nil, List.take_append_eq_append_take,
        Nat.sub_self, List.take_zero, List.append_nil, List.take_length] at htake
      refine headMatch_iff.mpr ⟨(a.drop m).drop l.length, ?_⟩
      conv_lhs => rw [← List.take_append_drop l.length (a.drop m)]
      rw [htake]

/-! ### Normalization and trimming lemmas -/

theorem normalizeNewlines_eq_self {l : List Char} (h : ∀ c ∈ l, c ≠ '\r') :
    normalizeNewlines l = l := by
  induction l with
  | nil => rfl
  | cons c rest ih =>
    cases rest with
    | nil => rfl
    | cons d rest' =>
      have hcd : ¬(c = '\r' ∧ d = '\n') := by
        rintro ⟨hc, -⟩
        exact absurd hc (h c (by simp))
      rw [show normalizeNewlines (c :: d :: rest') =
            if c = '\r' ∧ d = '\n' then '\n' :: normalizeNewlines rest'
            else c :: normalizeNewlines (d :: rest') from rfl,
        if_neg hcd]
      exact congrArg _ (ih (fun x hx => h x (List.mem_cons_of_mem c hx)))

theorem dropWhile_all_false {p : Char → Bool} {l : List Char}
    (h : ∀ c ∈ l, p c = false) : l.dropWhile p = l := by
  cases l with
  | nil => rfl
  | cons a as =>
    rw [List.dropWhile_cons, if_neg (by simp [h a (List.mem_cons_self a as)])]

theorem trimStart_eq_self {l : List Char}
    (h : ∀ c ∈ l, isRustWhitespace c = false) : trimStart l = l :=
  dropWhile_all_false h

theorem trimEnd_eq_self {l : List Char}
    (h : ∀ c ∈ l, isRustWhitespace c = false) : trimEnd l = l := by
  rw [trimEnd, dropWhile_all_false (fun c hc => h c (List.mem_reverse.mp hc)),
    List.reverse_reverse]

theorem trim_eq_self {l : List Char}
    (h : ∀ c ∈ l, isRustWhitespace c = false) : trim l = l := by
  rw [trim, trimStart_eq_self h, trimEnd_eq_self h]

theorem trimStart_cons_of_ws {c : Char} {l : List Char}
    (hc : isRustWhitespace c = true) : trimStart (c :: l) = trimStart l := by
  rw [trimStart, List.dropWhile_cons, if_pos hc]; rfl

theorem trim_cons_of_ws {c : Char} {l : List Char}
    (hc : isRustWhitespace c = true) : trim (c :: l) = trim l := by
  rw [trim, trimStart_cons_of_ws hc]; rfl

theorem dropLeadingColons_eq_self {l : List Char} (h : l.head? ≠ some ':') :
    dropLeadingColons l = l := by
  cases l with
  | nil => rfl
  | cons a as =>
    have ha : ¬(a = ':') := fun he => h (by rw [List.head?_cons, he])
    rw [dropLeadingColons, List.dropWhile_cons, if_neg (by simp [ha])]

theorem mem_of_getLast?_eq_some {l : List Char} {a : Char}
    (h : l.getLast? = some a) : a ∈ l := by
  have hx : a ∈ l.getLast? := h
  rcases List.mem_getLast?_eq_getLast hx with ⟨hne, heq⟩
  exact heq ▸ List.getLast_mem hne

theorem nlfree_of_wsfree {id : List Char}
    (h : ∀ c ∈ id, isRustWhitespace c = false) : ∀ c ∈ id, c ≠ '\n' := by
  intro c hc he
  exact absurd (h c hc) (by subst he; decide)

theorem crfree_of_wsfree {id : List Char}
    (h : ∀ c ∈ id, isRustWhitespace c = false) : ∀ c ∈ id, c ≠ '\r' := by
  intro c hc he
  exact absurd (h c hc) (by subst he; decide)

theorem takeWhile_ne_nl_all {x : List Char} (h : ∀ c ∈ x, c ≠ '\n') :
    x.takeWhile (fun c => c ≠ '\n') = x := by
  induction x with
  | nil => rfl
  | cons a as ih =>
    rw [List.takeWhile_cons, if_pos (by simp [h a (List.mem_cons_self a as)])]
    exact congrArg _ (ih (fun c hc => h c (List.mem_cons_of_mem a hc)))

theorem takeWhile_ne_nl_append {x z : List Char} (h : ∀ c ∈ x, c ≠ '\n') :
    (x ++ '\n' :: z).takeWhile (fun c => c ≠ '\n') = x := by
  induction x with
  | nil => rw [List.nil_append, List.takeWhile_cons, if_neg (by simp)]
  | cons a as ih =>
    rw [List.cons_append, List.takeWhile_cons,
      if_pos (by simp [h a (List.mem_cons_self a as)])]
    exact congrArg _ (ih (fun c hc => h c (List.mem_cons_of_mem a hc)))

/-- The first line of the canonical trailer tail `" <id>\n…"`. -/
theorem firstLineRust_canonical {id rest2 : List Char}
    (hws : ∀ c ∈ id, isRustWhitespace c = false) :
    firstLineRust ((' ' :: id) ++ '\n' :: rest2) = some (' ' :: id) := by
  have hnl : ∀ c ∈ ' ' :: id, c ≠ '\n' := by
    intro c hc
    rcases List.mem_cons.mp hc with hsp | hid
    · subst hsp; decide
    · exact nlfree_of_wsfree hws c hid
  have htake : ((' ' :: id) ++ '\n' :: rest2).takeWhile (fun c => c ≠ '\n') =
      ' ' :: id := takeWhile_ne_nl_append hnl
  have hcr : stripTrailCR (' ' :: id) = ' ' :: id := by
    rw [stripTrailCR, if_neg]
    intro hlast
    have hmem := mem_of_getLast?_eq_some hlast
    rcases List.mem_cons.mp hmem with hsp | hid
    · exact absurd hsp (by decide)
    · exact absurd (hws '\r' hid) (by decide)
  rw [firstLineRust, if_neg (by simp), htake,
    if_pos (by
      rw [List.length_append, List.length_cons, List.length_cons]
      omega), hcr]

/-- Identifier extraction over the canonical trailer tail for the first two
marker forms. -/
theorem sessionIdAfterMarker_canonical {id rest2 : List Char}
    (hws : ∀ c ∈ id, isRustWhitespace c = false) (hne : id ≠ [])
    (hcol : id.head? ≠ some ':') :
    sessionIdAfterMarker ((' ' :: id) ++ '\n' :: rest2) = some id := by
  rw [sessionIdAfterMarker, firstLineRust_canonical hws, Option.some_bind]
  rw [trim_cons_of_ws (by decide), trim_eq_self hws,
    dropLeadingColons_eq_self hcol, trim_eq_self hws,
    if_neg (by simp [List.isEmpty_iff, hne])]

/-- Identifier extraction over the bare-key tail `" <id>"`. -/
theorem sessionIdBare_canonical {id : List Char}
    (hws : ∀ c ∈ id, isRustWhitespace c = false) (hne : id ≠ []) :
    sessionIdBare (' ' :: id) = some id := by
  have hnl : ∀ c ∈ ' ' :: id, c ≠ '\n' := by
    intro c hc
    rcases List.mem_cons.mp hc with hsp | hid
    · subst hsp; decide
    · exact nlfree_of_wsfree hws c hid
  have hfl : firstLineRust (' ' :: id) = some (' ' :: id) := by
    rw [firstLineRust, if_neg (by simp), takeWhile_ne_nl_all hnl,
      if_neg (by omega)]
  rw [sessionIdBare, hfl, Option.some_bind]
  rw [trim_cons_of_ws (by decide), trim_eq_self hws,
    if_neg (by simp [List.isEmpty_iff, hne])]

/-- Last-occurrence of a needle that heads `t` and occurs nowhere later in
`t`: prepending arbitrary text puts the occurrence exactly at its length. -/
theorem rfindIdx_append_of_head {n t : List Char} (pre : List Char)
    (h0 : headMatch n t = true)
    (hin : ∀ k, 0 < k → headMatch n (t.drop k) = false) :
    rfindIdx n (pre ++ t) = some pre.length := by
  apply rfindIdx_eq_some
  · rw [List.drop_left]; exact h0
  · intro j hj
    have hsplit : (pre ++ t).drop j = t.drop (j - pre.length) :=
      drop_append_beyond (by omega)
    rw [hsplit]
    exact hin (j - pre.length) (by omega)

theorem rfindIdx_eq_none_of_occursB_false {n h : List Char}
    (hb : occursB n h = false) : rfindIdx n h = none := by
  cases hk : rfindIdx n h with
  | none => rfl
  | some k => rw [occursB, hk] at hb; exact absurd hb (by simp)

/-! ### The three well-formed trailer shapes -/

theorem spaceId_nlfree {id : List Char}
    (hws : ∀ c ∈ id, isRustWhitespace c = false) : ∀ c ∈ ' ' :: id, c ≠ '\n' := by
  intro c hc
  rcases List.mem_cons.mp hc with hsp | hid
  · subst hsp; decide
  · exact nlfree_of_wsfree hws c hid

theorem marker1_no_late_occ {id : List Char}
    (hws : ∀ c ∈ id, isRustWhitespace c = false) :
    ∀ k, 0 < k →
      headMatch marker1 ((marker1 ++ ((' ' :: id) ++ ['\n'])).drop k) = false := by
  intro k hk
  rcases Nat.lt_or_ge k marker1.length with hlt | hge
  · rw [drop_append_left (Nat.le_of_lt hlt)]
    exact headMatch_false_of_shiftFree (by decide) hk hlt _
  · rw [drop_append_beyond hge]
    exact headMatch_false_interior_nl
      (show marker1[0]? = some '\n' by decide) (by decide)
      (spaceId_nlfree hws) _

theorem marker2_no_late_occ {id : List Char}
    (hws : ∀ c ∈ id, isRustWhitespace c = false) :
    ∀ k, 0 < k →
      headMatch marker2 ((marker2 ++ ((' ' :: id) ++ ['\n'])).drop k) = false := by
  intro k hk
  rcases Nat.lt_or_ge k marker2.length with hlt | hge
  · rw [drop_append_left (Nat.le_of_lt hlt)]
    exact headMatch_false_of_shiftFree (by decide) hk hlt _
  · rw [drop_append_beyond hge]
    exact headMatch_false_interior_nl
      (show marker2[3]? = some '\n' by decide) (by decide)
      (spaceId_nlfree hws) _

theorem keyTok_no_late_occ {id : List Char}
    (hnoid : occursB keyTok id = false) :
    ∀ k, 0 < k → headMatch keyTok ((keyTok ++ (' ' :: id)).drop k) = false := by
  intro k hk
  rcases Nat.lt_or_ge k keyTok.length with hlt | hge
  · rw [drop_append_left (Nat.le_of_lt hlt)]
    exact headMatch_false_of_shiftFree (by decide) hk hlt _
  · rw [drop_append_beyond hge]
    rcases hm : k - keyTok.length with - | m
    · rw [List.drop_zero]
      rfl
    · rw [List.drop_succ_cons]
      exact headMatch_false_of_occursB_eq_false hnoid m

/-! ### Parsing the three well-formed trailer forms -/

theorem crfree_input {pre tail : List Char} (hprecr : ∀ c ∈ pre, c ≠ '\r')
    (htail : ∀ c ∈ tail, c ≠ '\r') : ∀ c ∈ pre ++ tail, c ≠ '\r' := by
  intro c hc
  rcases List.mem_append.mp hc with hp | ht
  · exact hprecr c hp
  · exact htail c ht

theorem trailer_crfree {marker id : List Char} (hm : ∀ c ∈ marker, c ≠ '\r')
    (hws : ∀ c ∈ id, isRustWhitespace c = false) :
    ∀ c ∈ marker ++ ((' ' :: id) ++ ['\n']), c ≠ '\r' := by
  intro c hc
  rcases List.mem_append.mp hc with h1 | h2
  · exact hm c h1
  · rcases List.mem_append.mp h2 with h3 | h4
    · rcases List.mem_cons.mp h3 with he | hid
      · subst he; decide
      · exact crfree_of_wsfree hws c hid
    · rcases List.mem_cons.mp h4 with he | habs
      · subst he; decide
      · exact absurd habs (List.not_mem_nil c)

/-- Parsing a text that ends with the exact first-form trailer
`"\n---\nSESSION_ID: <id>\n"`: the message is the trimmed text before the
marker and the identifier is recovered, for every carriage-return-free
message text and every nonempty whitespace-free identifier not starting
with a colon. -/
theorem parse_form1 {pre id : List Char}
    (hprecr : ∀ c ∈ pre, c ≠ '\r')
    (hws : ∀ c ∈ id, isRustWhitespace c = false) (hne : id ≠ [])
    (hcol : id.head? ≠ some ':') :
    parse_codeagent_stdout (pre ++ (marker1 ++ ((' ' :: id) ++ ['\n']))) =
      (trim pre, some id) := by
  have hnorm := normalizeNewlines_eq_self
    (crfree_input hprecr
      (trailer_crfree (show ∀ c ∈ marker1, c ≠ '\r' by decide) hws))
  have hfind : rfindIdx marker1 (pre ++ (marker1 ++ ((' ' :: id) ++ ['\n']))) =
      some pre.length :=
    rfindIdx_append_of_head pre (headMatch_self _ _) (marker1_no_late_occ hws)
  rw [parse_codeagent_stdout, hnorm, parseNormalized, hfind, Option.elim_some]
  rw [List.take_left, drop_append_beyond (by omega),
    show pre.length + marker1.length - pre.length = marker1.length by omega,
    List.drop_left]
  rw [sessionIdAfterMarker_canonical hws hne hcol]

/-- Parsing a text that ends with the second-form trailer
`"---\nSESSION_ID: <id>\n"` when the first-form marker occurs nowhere in
the text. -/
theorem parse_form2 {pre id : List Char}
    (hprecr : ∀ c ∈ pre, c ≠ '\r')
    (hws : ∀ c ∈ id, isRustWhitespace c = false) (hne : id ≠ [])
    (hcol : id.head? ≠ some ':')
    (hno1 : occursB marker1 (pre ++ (marker2 ++ ((' ' :: id) ++ ['\n']))) = false) :
    parse_codeagent_stdout (pre ++ (marker2 ++ ((' ' :: id) ++ ['\n']))) =
      (trim pre, some id) := by
  have hnorm := normalizeNewlines_eq_self
    (crfree_input hprecr
      (trailer_crfree (show ∀ c ∈ marker2, c ≠ '\r' by decide) hws))
  have hfind2 : rfindIdx marker2 (pre ++ (marker2 ++ ((' ' :: id) ++ ['\n']))) =
      some pre.length :=
    rfindIdx_append_of_head pre (headMatch_self _ _) (marker2_no_late_occ hws)
  rw [parse_codeagent_stdout, hnorm, parseNormalized,
    rfindIdx_eq_none_of_occursB_false hno1, Option.elim_none, hfind2,
    Option.elim_some]
  rw [List.take_left, drop_append_beyond (by omega),
    show pre.length + marker2.length - pre.length = marker2.length by omega,
    List.drop_left]
  rw [sessionIdAfterMarker_canonical hws hne hcol]

/-- Parsing a text that ends with the bare-key trailer `"SESSION_ID: <id>"`
when neither full marker occurs in the text and the key token does not
occur inside the identifier: the message is the text before the key,
stripped of trailing dashes and trimmed. -/
theorem parse_form3 {pre id : List Char}
    (hprecr : ∀ c ∈ pre, c ≠ '\r')
    (hws : ∀ c ∈ id, isRustWhitespace c = false) (hne : id ≠ [])
    (hnoid : occursB keyTok id = false)
    (hno1 : occursB marker1 (pre ++ (keyTok ++ (' ' :: id))) = false)
    (hno2 : occursB marker2 (pre ++ (keyTok ++ (' ' :: id))) = false) :
    parse_codeagent_stdout (pre ++ (keyTok ++ (' ' :: id))) =
      (trim (dropTrailingDashes pre), some id) := by
  have htailcr : ∀ c ∈ keyTok ++ (' ' :: id), c ≠ '\r' := by
    intro c hc
    rcases List.mem_append.mp hc with h1 | h2
    · exact (show ∀ c ∈ keyTok, c ≠ '\r' by decide) c h1
    · rcases List.mem_cons.mp h2 with he | hid
      · subst he; decide
      · exact crfree_of_wsfree hws c hid
  have hnorm := normalizeNewlines_eq_self (crfree_input hprecr htailcr)
  have hfind3 : rfindIdx keyTok (pre ++ (keyTok ++ (' ' :: id))) =
      some pre.length :=
    rfindIdx_append_of_head pre (headMatch_self _ _) (keyTok_no_late_occ hnoid)
  rw [parse_codeagent_stdout, hnorm, parseNormalized,
    rfindIdx_eq_none_of_occursB_false hno1, Option.elim_none,
    rfindIdx_eq_none_of_occursB_false hno2, Option.elim_none, hfind3,
    Option.elim_some]
  rw [List.take_left, drop_append_beyond (by omega),
    show pre.length + keyTok.length - pre.length = keyTok.length by omega,
    List.drop_left]
  rw [sessionIdBare_canonical hws hne]

/-! ### Streaming loop lemmas -/

theorem concatDeltas_nil : concatDeltas [] = [] := rfl

theorem concatDeltas_cons (e : List Char × Bool) (es : List (List Char × Bool)) :
    concatDeltas (e :: es) = e.1 ++ concatDeltas es := rfl

theorem utf8Len_ascii {l : List Char} (h : ∀ c ∈ l, c.utf8Size = 1) :
    utf8Len l = l.length := by
  induction l with
  | nil => rfl
  | cons c rest ih =>
    rw [utf8Len, List.map_cons, List.sum_cons, h c (List.mem_cons_self c rest)]
    rw [show (rest.map Char.utf8Size).sum = utf8Len rest from rfl,
      ih (fun x hx => h x (List.mem_cons_of_mem c hx)), List.length_cons]
    omega

theorem streamChunks_ne_nil : ∀ (rem buf : List Char), rem ≠ [] →
    streamChunks buf rem ≠ [] := by
  intro rem
  induction rem with
  | nil => intro buf h; exact absurd rfl h
  | cons c rest ih =>
    intro buf _
    have e : streamChunks buf (c :: rest) =
        if flushThreshold ≤ utf8Len (buf ++ [c]) ∨ rest = [] then
          (buf ++ [c], rest.isEmpty) :: streamChunks [] rest
        else streamChunks (buf ++ [c]) rest := rfl
    rw [e]
    by_cases hc : flushThreshold ≤ utf8Len (buf ++ [c]) ∨ rest = []
    · rw [if_pos hc]; exact List.cons_ne_nil _ _
    · rw [if_neg hc]
      exact ih (buf ++ [c]) (fun hr => hc (Or.inr hr))

theorem streamChunks_concat : ∀ (rem buf : List Char), rem ≠ [] →
    concatDeltas (streamChunks buf rem) = buf ++ rem := by
  intro rem
  induction rem with
  | nil => intro buf h; exact absurd rfl h
  | cons c rest ih =>
    intro buf _
    have e : streamChunks buf (c :: rest) =
        if flushThreshold ≤ utf8Len (buf ++ [c]) ∨ rest = [] then
          (buf ++ [c], rest.isEmpty) :: streamChunks [] rest
        else streamChunks (buf ++ [c]) rest := rfl
    rw [e]
    by_cases hc : flushThreshold ≤ utf8Len (buf ++ [c]) ∨ rest = []
    · rw [if_pos hc, concatDeltas_cons]
      rcases eq_or_ne rest [] with hr | hr
      · subst hr
        rw [show streamChunks ([] : List Char) ([] : List Char) = [] from rfl,
          concatDeltas_nil, List.append_nil]
      · rw [ih [] hr, List.nil_append, List.append_assoc, List.singleton_append]
    · rw [if_neg hc]
      rw [ih (buf ++ [c]) (fun hr => hc (Or.inr hr)), List.append_assoc,
        List.singleton_append]

theorem streamChunks_flags : ∀ (rem buf : List Char), rem ≠ [] →
    (streamChunks buf rem).map Prod.snd =
      List.replicate ((streamChunks buf rem).length - 1) false ++ [true] := by
  intro rem
  induction rem with
  | nil => intro buf h; exact absurd rfl h
  | cons c rest ih =>
    intro buf _
    have e : streamChunks buf (c :: rest) =
        if flushThreshold ≤ utf8Len (buf ++ [c]) ∨ rest = [] then
          (buf ++ [c], rest.isEmpty) :: streamChunks [] rest
        else streamChunks (buf ++ [c]) rest := rfl
    rw [e]
    by_cases hc : flushThreshold ≤ utf8Len (buf ++ [c]) ∨ rest = []
    · rw [if_pos hc]
      rcases eq_or_ne rest [] with hr | hr
      · subst hr
        rw [show streamChunks ([] : List Char) ([] : List Char) = [] from rfl]
        simp
      · have hlen : 1 ≤ (streamChunks [] rest).length :=
          List.length_pos.mpr (streamChunks_ne_nil rest [] hr)
        rw [List.map_cons, ih [] hr]
        rw [show rest.isEmpty = false by
          cases rest with
          | nil => exact absurd rfl hr
          | cons x xs => rfl]
        rw [List.length_cons]
        rw [show (streamChunks [] rest).length + 1 - 1 =
            ((streamChunks [] rest).length - 1) + 1 by omega]
        rw [List.replicate_succ, List.cons_append]
    · rw [if_neg hc]
      exact ih (buf ++ [c]) (fun hr => hc (Or.inr hr))

theorem streamChunks_length_ascii : ∀ (rem buf : List Char), rem ≠ [] →
    (∀ c ∈ buf, c.utf8Size = 1) → (∀ c ∈ rem, c.utf8Size = 1) →
    buf.length < flushThreshold →
    (streamChunks buf rem).length = (buf.length + rem.length + 31) / 32 := by
  intro rem
  induction rem with
  | nil => intro buf h; exact absurd rfl h
  | cons c rest ih =>
    intro buf _ hbuf hrem hlt
    have h32 : flushThreshold = 32 := rfl
    rw [h32] at hlt
    have hc1 : c.utf8Size = 1 := hrem c (List.mem_cons_self c rest)
    have hbc : ∀ x ∈ buf ++ [c], x.utf8Size = 1 := by
      intro x hx
      rcases List.mem_append.mp hx with h1 | h2
      · exact hbuf x h1
      · rcases List.mem_cons.mp h2 with he | habs
        · subst he; exact hc1
        · exact absurd habs (List.not_mem_nil x)
    have hulen : utf8Len (buf ++ [c]) = buf.length + 1 := by
      rw [utf8Len_ascii hbc, List.length_append, List.length_singleton]
    have e : streamChunks buf (c :: rest) =
        if flushThreshold ≤ utf8Len (buf ++ [c]) ∨ rest = [] then
          (buf ++ [c], rest.isEmpty) :: streamChunks [] rest
        else streamChunks (buf ++ [c]) rest := rfl
    rw [e]
    have hrest : ∀ x ∈ rest, x.utf8Size = 1 :=
      fun x hx => hrem x (List.mem_cons_of_mem c hx)
    rcases eq_or_ne rest [] with hr | hr
    · subst hr
      rw [if_pos (Or.inr rfl), List.length_cons,
        show streamChunks ([] : List Char) ([] : List Char) = [] from rfl,
        List.length_nil, List.length_singleton]
      omega
    · by_cases hflush : flushThreshold ≤ utf8Len (buf ++ [c])
      · rw [if_pos (Or.inl hflush)]
        rw [hulen, h32] at hflush
        have hb31 : buf.length = 31 := by omega
        rw [List.length_cons, ih [] hr (by intro x hx; cases hx) hrest (by decide)]
        rw [List.length_nil, hb31, List.length_cons]
        omega
      · rw [if_neg (fun hor => hor.elim hflush hr)]
        rw [ih (buf ++ [c]) hr hbc hrest (by
          rw [hulen, h32] at hflush
          rw [List.length_append, List.length_singleton, h32]
          omega)]
        rw [List.length_append, List.length_singleton, List.length_cons]
        have harith : buf.length + 1 + rest.length + 31 =
            buf.length + (rest.length + 1) + 31 := by omega
        rw [harith]

/-! ### Absence of all markers (for claim C6) -/

theorem headMatch_sub {x y h : List Char} {j : Nat}
    (hm : headMatch (x ++ y) (h.drop j) = true) :
    headMatch y (h.drop (j + x.length)) = true := by
  obtain ⟨r, hr⟩ := headMatch_iff.mp hm
  have hd : h.drop (j + x.length) = (h.drop j).drop x.length := by
    rw [List.drop_drop, Nat.add_comm]
  rw [hd, hr, List.append_assoc, List.drop_left]
  exact headMatch_self _ _

theorem no_marker_of_no_key {h : List Char} (hk : occursB keyTok h = false) :
    rfindIdx marker1 h = none ∧ rfindIdx marker2 h = none := by
  have hkall := headMatch_false_of_occursB_eq_false hk
  constructor
  · apply rfindIdx_eq_none
    intro j
    cases hb : headMatch marker1 (h.drop j) with
    | false => rfl
    | true =>
      have hb' : headMatch ((['\n', '-', '-', '-', '\n'] : List Char) ++ keyTok)
          (h.drop j) = true := hb
      have h2 := headMatch_sub hb'
      exact absurd h2 (by simp [hkall])
  · apply rfindIdx_eq_none
    intro j
    cases hb : headMatch marker2 (h.drop j) with
    | false => rfl
    | true =>
      have hb' : headMatch ((['-', '-', '-', '\n'] : List Char) ++ keyTok)
          (h.drop j) = true := hb
      have h2 := headMatch_sub hb'
      exact absurd h2 (by simp [hkall])

/-! ### Claim C1 — well-formed trailers -/

/-- Claim C1, counterexample.  For the input `"msg---SESSION_ID: x"` only
the bare-key marker form matches (at index 6, its last occurrence) and the
text strictly before it, trimmed of surrounding whitespace, is `"msg---"`;
the parser nevertheless returns `"msg"`, because the bare-key fallback also
strips trailing dashes.  This refutes the claim as stated. -/
theorem claim_C1_counterexample :
    occursB marker1 (("msg---SESSION_ID: x").data) = false
    ∧ occursB marker2 (("msg---SESSION_ID: x").data) = false
    ∧ rfindIdx keyTok (("msg---SESSION_ID: x").data) = some 6
    ∧ trim ((("msg---SESSION_ID: x").data).take 6) = ("msg---").data
    ∧ (parse_codeagent_stdout (("msg---SESSION_ID: x").data)).1 ≠ ("msg---").data
    ∧ parse_codeagent_stdout (("msg---SESSION_ID: x").data) =
        (("msg").data, some (("x").data)) := by
  decide

/-- Claim C1 as amended: for texts ending in a well-formed trailer of any
of the three marker forms — a carriage-return-free message text followed by
the marker, one space, a nonempty whitespace-free identifier token (not
starting with a colon), and for the first two forms a final newline — the
parser returns the text strictly before the last occurrence of the
highest-priority matching marker (the hypotheses on the lower-priority
forms state that no higher-priority marker occurs anywhere, and that the
key token does not occur inside the identifier), trimmed of surrounding
whitespace — and, in the bare-key form only, first stripped of trailing
dash characters — together with the identifier; in particular the input
`"Done.\n---\nSESSION_ID: abc123\n"` yields message `"Done."` and
identifier `"abc123"`. -/
theorem claim_C1_theorem (pre id : List Char)
    (hprecr : ∀ c ∈ pre, c ≠ '\r')
    (hws : ∀ c ∈ id, isRustWhitespace c = false) (hne : id ≠ [])
    (hcol : id.head? ≠ some ':') :
    parse_codeagent_stdout (pre ++ (marker1 ++ ((' ' :: id) ++ ['\n']))) =
      (trim pre, some id)
    ∧ (occursB marker1 (pre ++ (marker2 ++ ((' ' :: id) ++ ['\n']))) = false →
        parse_codeagent_stdout (pre ++ (marker2 ++ ((' ' :: id) ++ ['\n']))) =
          (trim pre, some id))
    ∧ (occursB keyTok id = false →
       occursB marker1 (pre ++ (keyTok ++ (' ' :: id))) = false →
       occursB marker2 (pre ++ (keyTok ++ (' ' :: id))) = false →
        parse_codeagent_stdout (pre ++ (keyTok ++ (' ' :: id))) =
          (trim (dropTrailingDashes pre), some id))
    ∧ parse_codeagent_stdout (("Done.\n---\nSESSION_ID: abc123\n").data) =
        (("Done.").data, some (("abc123").data)) :=
  ⟨parse_form1 hprecr hws hne hcol,
   fun hno1 => parse_form2 hprecr hws hne hcol hno1,
   fun hnoid hno1 hno2 => parse_form3 hprecr hws hne hnoid hno1 hno2,
   by decide⟩

/-- Witness for claim C1 at the message `"Hello."` and the identifier
`"abc123"`, first marker form. -/
theorem claim_C1_witness :
    parse_codeagent_stdout
        ((("Hello.").data) ++ (marker1 ++ ((' ' :: ("abc123").data) ++ ['\n']))) =
      (trim (("Hello.").data), some (("abc123").data)) :=
  (claim_C1_theorem (("Hello.").data) (("abc123").data)
    (by decide) (by decide) (by decide) (by decide)).1

/-! ### Claim C6 — no marker at all -/

/-- Claim C6: when the bare key token (and hence either full marker form)
occurs nowhere in the line-ending-normalized text, the parser returns the
entire normalized text, trimmed, as the message and no identifier.  The
parser is a total function by construction, so it never fails. -/
theorem claim_C6_theorem (s : List Char)
    (hk : occursB keyTok (normalizeNewlines s) = false) :
    parse_codeagent_stdout s = (trim (normalizeNewlines s), none) := by
  obtain ⟨h1, h2⟩ := no_marker_of_no_key hk
  rw [parse_codeagent_stdout, parseNormalized, h1, Option.elim_none, h2,
    Option.elim_none, rfindIdx_eq_none_of_occursB_false hk, Option.elim_none]

/-- Witness for claim C6 on the input `"hello world"`. -/
theorem claim_C6_witness :
    parse_codeagent_stdout (("hello world").data) =
      (trim (normalizeNewlines (("hello world").data)), none) :=
  claim_C6_theorem (("hello world").data) (by decide)

/-! ### Claim C2 — streaming chunk loop -/

/-- Claim C2, counterexample.  The streaming loop of
`send_chat_message_streaming` iterates over the characters of the response,
so an empty response emits **zero** events (the claim asserts at least one,
final, even for length 0); moreover the flush threshold compares the
UTF-8 **byte** length of the buffer against 32, so 33 three-byte characters
produce 3 events where the claim (counting scalar values) predicts
`ceil(33/32) = 2`. -/
theorem claim_C2_counterexample :
    ¬(1 ≤ (send_chat_message_streaming_events []).length)
    ∧ (send_chat_message_streaming_events (List.replicate 33 '中')).length = 3
    ∧ (33 + 31) / 32 = 2 := by
  refine ⟨by decide, by decide, by decide⟩

/-- Claim C2 as amended: for every **nonempty** message, concatenating the
emitted deltas in order reconstructs the message exactly, the emitted
final flags are `false` on every event except the last, which is `true`
(so exactly one event is final and it is the last); and when every
character of the message encodes as a single UTF-8 byte the number of
events is `ceil(N / 32)` — the flush threshold counts bytes, not scalar
values, so multi-byte characters may produce more, shorter chunks.  The
empty message emits no events at all. -/
theorem claim_C2_theorem (msg : List Char) (h : msg ≠ []) :
    concatDeltas (send_chat_message_streaming_events msg) = msg
    ∧ (send_chat_message_streaming_events msg).map Prod.snd =
        List.replicate ((send_chat_message_streaming_events msg).length - 1)
          false ++ [true]
    ∧ ((∀ c ∈ msg, c.utf8Size = 1) →
        (send_chat_message_streaming_events msg).length = (msg.length + 31) / 32)
    ∧ send_chat_message_streaming_events [] = [] := by
  refine ⟨?_, streamChunks_flags msg [] h, fun hascii => ?_, rfl⟩
  · rw [send_chat_message_streaming_events, streamChunks_concat msg [] h,
      List.nil_append]
  · rw [send_chat_message_streaming_events,
      streamChunks_length_ascii msg [] h (by intro x hx; cases hx) hascii
        (by decide), List.length_nil, Nat.zero_add]

/-- Witness for claim C2 on the message `"ab"`: one single final event. -/
theorem claim_C2_witness :
    concatDeltas (send_chat_message_streaming_events (("ab").data)) = ("ab").data
    ∧ (send_chat_message_streaming_events (("ab").data)).length =
        ((("ab").data).length + 31) / 32 :=
  ⟨(claim_C2_theorem (("ab").data) (by decide)).1,
   (claim_C2_theorem (("ab").data) (by decide)).2.2.1 (by decide)⟩

/-! ### Claim C3 — diagnostics of a nonzero exit -/

/-- Claim C3, counterexample.  On a nonzero exit the returned error text
embeds the **full** trimmed stderr — here a 4001-character buffer, longer
than the 4000-character budget the claim allows — as a contiguous segment;
the truncated tails produced by `tail_snippet` go only to the warning log.
This refutes the claim that the error carries only capped tails. -/
theorem claim_C3_counterexample :
    4000 < (List.replicate 4001 'a').length
    ∧ run_codeagent_outcome ⟨[], List.replicate 4001 'a', 1⟩ =
        .error (nonzeroExitErrorMsg 1 (List.replicate 4001 'a'))
    ∧ (List.replicate 4001 'a')
        <:+: nonzeroExitErrorMsg 1 (List.replicate 4001 'a') := by
  have hws : ∀ c ∈ List.replicate 4001 'a', isRustWhitespace c = false := by
    intro c hc
    rw [List.eq_of_mem_replicate hc]
    decide
  refine ⟨?_, rfl, ⟨nonzeroExitHeader 1, [], ?_⟩⟩
  · rw [List.length_replicate]
    omega
  · rw [List.append_nil, nonzeroExitErrorMsg, trim_eq_self hws]

/-- Claim C3 as amended: on every nonzero exit, `run_codeagent_wrapper`
returns the error built from the literal exit code and the full trimmed
stderr (stdout does not appear in the error at all); the trimmed stderr is
a suffix of the error text, untruncated.  The 4000-character
front-trimmed, ellipsis-marked tails of stderr and stdout are computed by
`tail_snippet` only for the warning log. -/
theorem claim_C3_theorem (out : RunOutput) (h : out.exit_code ≠ 0) :
    run_codeagent_outcome out =
      .error (nonzeroExitErrorMsg out.exit_code out.stderr)
    ∧ trim out.stderr <:+ nonzeroExitErrorMsg out.exit_code out.stderr := by
  constructor
  · have e : run_codeagent_outcome out =
        if out.exit_code ≠ 0 then
          .error (nonzeroExitErrorMsg out.exit_code out.stderr)
        else
          if (trim (parse_codeagent_stdout out.stdout).1).isEmpty then
            .error (emptyResultErrorMsg out.stderr)
          else
            .ok ⟨(parse_codeagent_stdout out.stdout).1,
                 (parse_codeagent_stdout out.stdout).2,
                 out.stdout, out.stderr, out.exit_code⟩ := rfl
    rw [e, if_pos h]
  · exact ⟨nonzeroExitHeader out.exit_code, rfl⟩

/-- Witness for claim C3 at exit code 7 and stderr `"boom"`. -/
theorem claim_C3_witness :
    run_codeagent_outcome ⟨[], ("boom").data, 7⟩ =
      .error (nonzeroExitErrorMsg 7 (("boom").data))
    ∧ trim (("boom").data) <:+ nonzeroExitErrorMsg 7 (("boom").data) :=
  claim_C3_theorem ⟨[], ("boom").data, 7⟩ (by decide)

/-! ### Claim C7 — empty parsed message is a hard failure -/

/-- Claim C7: when the child exits with code 0 but the parsed message is
empty or whitespace-only, the orchestrator returns the `EmptyResult` error
rather than a result. -/
theorem claim_C7_theorem (out : RunOutput) (h0 : out.exit_code = 0)
    (hempty : (trim (parse_codeagent_stdout out.stdout).1).isEmpty = true) :
    run_codeagent_outcome out = .error (emptyResultErrorMsg out.stderr) := by
  have e : run_codeagent_outcome out =
      if out.exit_code ≠ 0 then
        .error (nonzeroExitErrorMsg out.exit_code out.stderr)
      else
        if (trim (parse_codeagent_stdout out.stdout).1).isEmpty then
          .error (emptyResultErrorMsg out.stderr)
        else
          .ok ⟨(parse_codeagent_stdout out.stdout).1,
               (parse_codeagent_stdout out.stdout).2,
               out.stdout, out.stderr, out.exit_code⟩ := rfl
  rw [e, if_neg (by rw [h0]; exact fun hcontra => hcontra rfl), if_pos hempty]

/-- Witness for claim C7: empty stdout with exit code 0. -/
theorem claim_C7_witness :
    run_codeagent_outcome ⟨[], ("boom").data, 0⟩ =
      .error (emptyResultErrorMsg (("boom").data)) :=
  claim_C7_theorem ⟨[], ("boom").data, 0⟩ rfl (by decide)

/-! ### Claim C4 — backend selection -/

theorem derive_cli_closed {h x : List Char}
    (hd : derive_backend_from_code_cli h = some x) :
    x = ("claude").data ∨ x = ("gemini").data ∨ x = ("codex").data := by
  simp only [derive_backend_from_code_cli] at hd
  split_ifs at hd <;>
    (have hx := Option.some.inj hd; subst hx; decide)

theorem derive_model_closed (m : Option (List Char)) :
    derive_backend_from_current_model m = ("codex").data ∨
    derive_backend_from_current_model m = ("claude").data ∨
    derive_backend_from_current_model m = ("gemini").data := by
  simp only [derive_backend_from_current_model]
  split_ifs <;> decide

/-- Claim C4, counterexample: an explicitly configured backend string is
used verbatim, so `"foo"` resolves to `"foo"`, which is none of the three
closed tags.  This refutes closedness over every combination. -/
theorem claim_C4_counterexample :
    select_backend (some (("foo").data)) none none = ("foo").data
    ∧ ¬(select_backend (some (("foo").data)) none none = ("codex").data ∨
        select_backend (some (("foo").data)) none none = ("claude").data ∨
        select_backend (some (("foo").data)) none none = ("gemini").data) := by
  decide

/-- Claim C4 as amended: backend selection is total (a Lean function); when
**no** explicit backend is configured the result is one of exactly
`{codex, claude, gemini}`; an explicitly configured backend always wins
outright and is used verbatim (even when it is not one of the three known
tags); an unrecognized caller hint falls through to derivation from the
current model name, which defaults to `codex`. -/
theorem claim_C4_theorem (cli model : Option (List Char)) :
    (select_backend none cli model = ("codex").data ∨
     select_backend none cli model = ("claude").data ∨
     select_backend none cli model = ("gemini").data)
    ∧ (∀ b, select_backend (some b) cli model = b)
    ∧ (∀ hint, derive_backend_from_code_cli hint = none →
        select_backend none (some hint) model =
          derive_backend_from_current_model model) := by
  refine ⟨?_, fun b => rfl, fun hint hd => ?_⟩
  · have e : select_backend none cli model =
        (cli.bind derive_backend_from_code_cli).getD
          (derive_backend_from_current_model model) := rfl
    rcases hb : cli.bind derive_backend_from_code_cli with - | x
    · have hsel : select_backend none cli model =
          derive_backend_from_current_model model := by
        rw [e, hb, Option.getD_none]
      rw [hsel]
      exact derive_model_closed model
    · have hsel : select_backend none cli model = x := by
        rw [e, hb, Option.getD_some]
      rw [hsel]
      rcases cli with - | hcli
      · rw [Option.none_bind] at hb
        exact absurd hb (by simp)
      · rw [Option.some_bind] at hb
        rcases derive_cli_closed hb with h1 | h2 | h3
        · exact Or.inr (Or.inl h1)
        · exact Or.inr (Or.inr h2)
        · exact Or.inl h3
  · have e : select_backend none (some hint) model =
        (derive_backend_from_code_cli hint).getD
          (derive_backend_from_current_model model) := rfl
    rw [e, hd, Option.getD_none]

/-- Witness for claim C4: an explicit backend wins verbatim, and an
unrecognized hint falls through to model derivation (here `codex` for
`"gpt-4"`). -/
theorem claim_C4_witness :
    select_backend (some (("claude").data)) none none = ("claude").data
    ∧ select_backend none (some (("weird-cli").data)) (some (("gpt-4").data)) =
        derive_backend_from_current_model (some (("gpt-4").data)) :=
  ⟨(claim_C4_theorem none none).2.1 (("claude").data),
   (claim_C4_theorem none (some (("gpt-4").data))).2.2 (("weird-cli").data)
     (by decide)⟩

/-! ### Claim C5 — explicit executable path -/

/-- Claim C5: resolution with an explicit path succeeds with exactly that
path when it exists, fails with the resolution error when it does not, and
in either case depends only on the existence of that one path — never on
the `PATH` entries, home-directory installs, or the development fallback
(the third conjunct: any two environments agreeing on the explicit path
resolve it identically). -/
theorem claim_C5_theorem (fs fs2 : ResolveFs) (p : String) :
    (fs.pathExists p = false →
      find_codeagent_wrapper fs (some p) =
        .error "指定的 codeagent-wrapper 路径不存在")
    ∧ (fs.pathExists p = true → find_codeagent_wrapper fs (some p) = .ok p)
    ∧ (fs.pathExists p = fs2.pathExists p →
        find_codeagent_wrapper fs (some p) = find_codeagent_wrapper fs2 (some p)) := by
  have e : ∀ g : ResolveFs, find_codeagent_wrapper g (some p) =
      if g.pathExists p then .ok p
      else .error "指定的 codeagent-wrapper 路径不存在" := fun g => rfl
  refine ⟨fun hf => ?_, fun ht => ?_, fun hagree => ?_⟩
  · rw [e, hf]
    rfl
  · rw [e, ht]
    rfl
  · rw [e, e, hagree]

/-- Witness for claim C5: a nonexistent explicit path fails, an existing
one succeeds with itself. -/
theorem claim_C5_witness :
    find_codeagent_wrapper (ResolveFs.mk (fun _ => false) (fun _ => false) [] none)
        (some "/nope") = .error "指定的 codeagent-wrapper 路径不存在"
    ∧ find_codeagent_wrapper (ResolveFs.mk (fun _ => true) (fun _ => false) [] none)
        (some "/bin/ca") = .ok "/bin/ca" :=
  ⟨(claim_C5_theorem (ResolveFs.mk (fun _ => false) (fun _ => false) [] none)
      (ResolveFs.mk (fun _ => false) (fun _ => false) [] none) "/nope").1 rfl,
   (claim_C5_theorem (ResolveFs.mk (fun _ => true) (fun _ => false) [] none)
      (ResolveFs.mk (fun _ => true) (fun _ => false) [] none) "/bin/ca").2.1 rfl⟩

/-! ### Claim C8 — argument vector construction -/

/-- Claim C8: for every run specification the argument vector built by
`run_codeagent_wrapper` equals the vector described by the specification
order — backend flag (trimmed backend non-empty), parallel flag,
permission-skip flag, then only in non-parallel mode an optional
`resume <id>` pair (non-empty trimmed id) followed by the stdin sentinel
`"-"` and the working directory; in parallel mode nothing further is
appended. -/
theorem claim_C8_theorem (spec : CodeagentRunSpec) :
    run_codeagent_wrapper_args spec = run_codeagent_wrapper_args_spec spec := by
  rcases spec with ⟨task, backend, workdir, skipp, tms, mw, bp, resume, par, cm⟩
  rcases resume with - | r
  · rw [run_codeagent_wrapper_args, run_codeagent_wrapper_args_spec]
    by_cases hb : (trim backend).isEmpty = true <;>
      by_cases hp : par = true <;>
        by_cases hs : skipp = true <;>
          simp [hb, hp, hs]
  · rw [run_codeagent_wrapper_args, run_codeagent_wrapper_args_spec]
    by_cases hb : (trim backend).isEmpty = true <;>
      by_cases hp : par = true <;>
        by_cases hs : skipp = true <;>
          by_cases hr : (trim r).isEmpty = true <;>
            simp [hb, hp, hs, hr]

/-! ### Claim C9 — cancellation of a stream -/

/-- Claim C9 context: the embedded streaming loop takes no cancellation
input at all — the event sequence is a pure function of the message — so
for a 64-character message both events, including the one after any
would-be cancellation point, are determined and the second (final) event
is still produced.  In the repository, `AppState.streaming_tasks` is never
inserted into, and no command signals or aborts a streaming task. -/
theorem claim_C9_theorem :
    (send_chat_message_streaming_events (List.replicate 64 'a')).length = 2
    ∧ (send_chat_message_streaming_events (List.replicate 64 'a')).map Prod.snd =
        [false, true] := by
  decide

/-! ### Claim C10 — `tail_snippet` totality -/

/-- Claim C10 context: `tail_snippet "中中" 2` reaches the final
`String::truncate(max_chars + 2)` call with byte index 4, which falls in
the middle of the second three-byte character, so the call panics
(modelled as `none`) — the function is not total on multi-byte input. -/
theorem claim_C10_theorem : tail_snippet (("中中").data) 2 = none := by decide

end Orchestrator
